import Mathlib

/-!
Verification of the crypto module (src/crypto.ts) of workshop-4.

The module is a thin wrapper around the platform WebCrypto provider:
a base64 codec built on Node Buffer, RSA-OAEP key-pair handling and
encryption, and AES-CBC symmetric encryption using a single module-level
IV generated once at load time (line 3 of the source).

Shallow embedding conventions:
* bytes are `Nat` (with `< 256` bounds stated where they matter), buffers
  are `List Nat`;
* JS strings that carry text are `List Char` (Unicode scalar values);
  JS strings that carry base64 are `List Nat` of character codes;
* the platform AES block permutation and the RSA-OAEP core are opaque
  primitives; they are abstracted as structures (`BlockCipher`, `RsaOaep`)
  carrying exactly their documented contracts, while everything the module
  itself relies on (base64, UTF-8, PKCS#7 padding, CBC chaining, the OAEP
  length gate) is implemented concretely;
* key handles are represented by their exported material (raw bytes for
  AES keys, SPKI/PKCS8 serializations for RSA keys), following the spec's
  design note on opaque native key handles;
* promise rejections are `Except CryptoError`, with the error constructors
  named after the failure conditions of the spec's error taxonomy (§7).
-/

namespace Workshop4

/-- A byte buffer: TypeScript `ArrayBuffer` / `Uint8Array` contents. -/
abbrev Bytes := List Nat

/-- All entries of a buffer are genuine bytes. -/
def allLt256 (l : Bytes) : Prop := ∀ b ∈ l, b < 256

instance (l : Bytes) : Decidable (allLt256 l) :=
  inferInstanceAs (Decidable (∀ b ∈ l, b < 256))

/-! ## Base64 codec

`arrayBufferToBase64` is Node `Buffer.toString("base64")`: standard base64
with padding.  `base64ToArrayBuffer` is Node `Buffer.from(str, "base64")`:
a lenient decoder that stops at the first `=` padding character, accepts
the URL-safe digits `-`/`_` as 62/63 alongside `+`/`/`, ignores any other
character outside the alphabet, and drops trailing bits that do not fill
a whole byte.  It never throws. -/

/-- Character code of the base64 digit with index `i < 64`. -/
def b64Char (i : Nat) : Nat :=
  if i < 26 then 65 + i
  else if i < 52 then 97 + (i - 26)
  else if i < 62 then 48 + (i - 52)
  else if i = 62 then 43
  else 47

/-- Index of a base64 digit character as Node's decoder reads it: the
standard alphabet plus the URL-safe digits `-` (45) and `_` (95); `none`
for anything else (also for the padding character `=`, code 61). -/
def b64Val (c : Nat) : Option Nat :=
  if 65 ≤ c ∧ c ≤ 90 then some (c - 65)
  else if 97 ≤ c ∧ c ≤ 122 then some (c - 97 + 26)
  else if 48 ≤ c ∧ c ≤ 57 then some (c - 48 + 52)
  else if c = 43 then some 62
  else if c = 47 then some 63
  else if c = 45 then some 62
  else if c = 95 then some 63
  else none

/-- Base64-encode a buffer, three bytes at a time, padding with `=`. -/
def b64EncodeBytes : Bytes → List Nat
  | [] => []
  | [b1] =>
    [b64Char (b1 / 4), b64Char (b1 % 4 * 16), 61, 61]
  | [b1, b2] =>
    [b64Char (b1 / 4), b64Char (b1 % 4 * 16 + b2 / 16), b64Char (b2 % 16 * 4), 61]
  | b1 :: b2 :: b3 :: rest =>
    b64Char (b1 / 4) :: b64Char (b1 % 4 * 16 + b2 / 16) ::
      b64Char (b2 % 16 * 4 + b3 / 64) :: b64Char (b3 % 64) :: b64EncodeBytes rest

/-- Reassemble bytes from a stream of 6-bit values, dropping trailing bits
that do not fill a byte (Node semantics). -/
def sextetsToBytes : List Nat → Bytes
  | s1 :: s2 :: s3 :: s4 :: rest =>
    (s1 * 4 + s2 / 16) :: (s2 % 16 * 16 + s3 / 4) :: (s3 % 4 * 64 + s4) ::
      sextetsToBytes rest
  | [s1, s2, s3] => [s1 * 4 + s2 / 16, s2 % 16 * 16 + s3 / 4]
  | [s1, s2] => [s1 * 4 + s2 / 16]
  | _ => []

/-- `arrayBufferToBase64` (crypto.ts line 10): `Buffer.from(buffer).toString("base64")`. -/
def arrayBufferToBase64 (buffer : Bytes) : List Nat :=
  b64EncodeBytes buffer

/-- `base64ToArrayBuffer` (crypto.ts line 15): `Buffer.from(base64, "base64")`,
Node's lenient base64 decoder.  Total: decoding stops at the first `=`
padding character, and other invalid characters before it are skipped. -/
def base64ToArrayBuffer (base64 : List Nat) : Bytes :=
  sextetsToBytes ((base64.takeWhile (fun c => c != 61)).filterMap b64Val)

/-- A character code the Node decoder maps to a sextet (standard alphabet
plus the URL-safe digits). -/
def isB64Alpha (c : Nat) : Bool := (b64Val c).isSome

/-- A character code of the standard base64 alphabet proper. -/
def isStdB64Alpha (c : Nat) : Bool :=
  (65 ≤ c && c ≤ 90) || (97 ≤ c && c ≤ 122) || (48 ≤ c && c ≤ 57) || c == 43 || c == 47

/-- Number of trailing `=` padding characters. -/
def trailingPad (s : List Nat) : Nat :=
  (s.reverse.takeWhile (fun c => c == 61)).length

/-- Validity of standard base64, following the spec's words for the Codec:
length a multiple of four, at most two trailing padding characters, and
every other character from the standard base64 alphabet. -/
def isStdBase64 (s : List Nat) : Bool :=
  (s.length % 4 == 0) && decide (trailingPad s ≤ 2) &&
    (s.take (s.length - trailingPad s)).all isStdB64Alpha

/-! ## UTF-8

`TextEncoder().encode` encodes a sequence of Unicode scalar values as
UTF-8 bytes.  `TextDecoder().decode` (constructed with all defaults, as
in crypto.ts line 181) is the WHATWG UTF-8 decoder with replacement:
malformed sequences never raise; each error produces U+FFFD, an
offending byte that could begin a new sequence is reconsumed, and — with
the default `ignoreBOM: false` — a leading EF BB BF byte-order mark is
removed before decoding. -/

/-- UTF-8 encoding of one Unicode scalar value (`TextEncoder` per char). -/
def utf8EncodeChar (c : Char) : Bytes :=
  let n := c.toNat
  if n < 128 then [n]
  else if n < 2048 then [192 + n / 64, 128 + n % 64]
  else if n < 65536 then [224 + n / 4096, 128 + n / 64 % 64, 128 + n % 64]
  else [240 + n / 262144, 128 + n / 4096 % 64, 128 + n / 64 % 64, 128 + n % 64]

/-- `TextEncoder().encode` over a whole string. -/
def utf8Encode (s : List Char) : Bytes :=
  (s.map utf8EncodeChar).flatten

/-- The U+FFFD replacement character emitted by `TextDecoder` on error. -/
def replChar : Char := Char.ofNat 65533

/-- One step of the WHATWG UTF-8 decoder: given the first byte and the
remaining bytes, produce the decoded (or replacement) character and the
bytes not yet consumed.  Follows the WHATWG boundaries for continuation
bytes (E0/ED/F0/F4 special cases); on a bad continuation byte the
offending byte is reconsumed; at end of input a truncated sequence yields
a single replacement. -/
def utf8Step (b1 : Nat) (t : Bytes) : Char × Bytes :=
  if b1 < 128 then (Char.ofNat b1, t)
  else if 194 ≤ b1 ∧ b1 ≤ 223 then
    match t with
    | [] => (replChar, [])
    | b2 :: t2 =>
      if 128 ≤ b2 ∧ b2 ≤ 191 then
        (Char.ofNat ((b1 - 192) * 64 + (b2 - 128)), t2)
      else (replChar, b2 :: t2)
  else if 224 ≤ b1 ∧ b1 ≤ 239 then
    match t with
    | [] => (replChar, [])
    | b2 :: t2 =>
      if (if b1 = 224 then 160 else 128) ≤ b2 ∧ b2 ≤ (if b1 = 237 then 159 else 191) then
        match t2 with
        | [] => (replChar, [])
        | b3 :: t3 =>
          if 128 ≤ b3 ∧ b3 ≤ 191 then
            (Char.ofNat ((b1 - 224) * 4096 + (b2 - 128) * 64 + (b3 - 128)), t3)
          else (replChar, b3 :: t3)
      else (replChar, b2 :: t2)
  else if 240 ≤ b1 ∧ b1 ≤ 244 then
    match t with
    | [] => (replChar, [])
    | b2 :: t2 =>
      if (if b1 = 240 then 144 else 128) ≤ b2 ∧ b2 ≤ (if b1 = 244 then 143 else 191) then
        match t2 with
        | [] => (replChar, [])
        | b3 :: t3 =>
          if 128 ≤ b3 ∧ b3 ≤ 191 then
            match t3 with
            | [] => (replChar, [])
            | b4 :: t4 =>
              if 128 ≤ b4 ∧ b4 ≤ 191 then
                (Char.ofNat ((b1 - 240) * 262144 + (b2 - 128) * 4096 +
                  (b3 - 128) * 64 + (b4 - 128)), t4)
              else (replChar, b4 :: t4)
          else (replChar, b3 :: t3)
      else (replChar, b2 :: t2)
  else (replChar, t)

/-- Fuel-driven driver of the WHATWG decoder; each step consumes at least
one byte, so fuel equal to the input length suffices. -/
def utf8DecodeGo : Nat → Bytes → List Char
  | 0, _ => []
  | _, [] => []
  | fuel + 1, b :: t =>
    (utf8Step b t).1 :: utf8DecodeGo fuel (utf8Step b t).2

/-- Raw UTF-8 decoding with U+FFFD replacement, no BOM handling. -/
def utf8DecodeRaw (l : Bytes) : List Char :=
  utf8DecodeGo l.length l

/-- `TextDecoder().decode` with the default `ignoreBOM: false`: a leading
EF BB BF byte-order mark is removed, then the bytes are
replacement-decoded. -/
def utf8Decode (l : Bytes) : List Char :=
  if l.take 3 = [239, 187, 191] then utf8DecodeRaw (l.drop 3) else utf8DecodeRaw l

/-- A byte sequence is valid UTF-8 exactly when replacement-decoding it
(without BOM removal) and re-encoding the result reproduces it (the raw
decoder is exact on valid input and the encoder is canonical). -/
def isValidUtf8 (l : Bytes) : Bool :=
  utf8Encode (utf8DecodeRaw l) == l

/-! ## Error taxonomy

The source code itself defines no error classes: every failure is a
rejected promise from the WebCrypto provider or Node.  Following the
spec's error taxonomy (§7), each failure condition is named by a
constructor; a rejected operation is `Except.error` of that condition. -/

/-- Failure conditions of the module, named per the spec taxonomy (§7). -/
inductive CryptoError where
  | EncodingError
  | KeyFormatError
  | KeyRoleError
  | PayloadTooLargeError
  | CryptoProviderError
  | CryptoOperationError
deriving DecidableEq, Repr

/-! ## AES-CBC (platform primitive used by symEncrypt / symDecrypt)

`webcrypto.subtle.encrypt({name: "AES-CBC", iv}, key, data)` PKCS#7-pads
the data and chains 16-byte blocks through the AES permutation;
`subtle.decrypt` inverts the chaining and validates the padding, rejecting
with an OperationError (the taxonomy's CryptoOperationError) when the
ciphertext length or the padding is wrong.  The mode (padding, chaining,
length handling) is concrete here; the AES block permutation itself is
opaque and abstracted as `BlockCipher`. -/

/-- PKCS#7: append `p` copies of `p`, where `p = 16 - len % 16 ∈ [1, 16]`. -/
def pkcs7Pad (data : Bytes) : Bytes :=
  data ++ List.replicate (16 - data.length % 16) (16 - data.length % 16)

/-- PKCS#7 validation and removal: the last byte `p` must lie in `[1, 16]`,
not exceed the length, and the last `p` bytes must all equal `p`. -/
def pkcs7Unpad (l : Bytes) : Option Bytes :=
  match l.getLast? with
  | none => none
  | some p =>
    if 1 ≤ p ∧ p ≤ 16 ∧ p ≤ l.length ∧ ((l.drop (l.length - p)).all (fun x => x == p))
    then some (l.take (l.length - p))
    else none

/-- Bytewise xor of two buffers (truncating to the shorter). -/
def xorBytes (a b : Bytes) : Bytes :=
  List.zipWith (fun x y => x ^^^ y) a b

/-- Split a buffer into chunks of 16 bytes, fuel-driven. -/
def chunk16Go : Nat → Bytes → List Bytes
  | 0, _ => []
  | _, [] => []
  | fuel + 1, b :: t =>
    (b :: t).take 16 :: chunk16Go fuel ((b :: t).drop 16)

/-- Split a buffer into chunks of 16 bytes (the last may be shorter if the
length is not a multiple of 16). -/
def chunk16 (l : Bytes) : List Bytes :=
  chunk16Go l.length l

/-- The AES block permutation of the provider, abstracted: `enc key block`
and `dec key block` on 16-byte blocks, with the provider's contract that
decryption inverts encryption and blocks stay 16 proper bytes. -/
structure BlockCipher where
  enc : Bytes → Bytes → Bytes
  dec : Bytes → Bytes → Bytes
  enc_len : ∀ k b, b.length = 16 → (enc k b).length = 16
  enc_lt : ∀ k b, b.length = 16 → allLt256 b → allLt256 (enc k b)
  dec_enc : ∀ k b, b.length = 16 → allLt256 b → dec k (enc k b) = b

/-- CBC chaining for encryption: each block is xored with the previous
ciphertext block (initially the IV) before the block cipher is applied. -/
def cbcEncBlocks (E : Bytes → Bytes) (prev : Bytes) : List Bytes → List Bytes
  | [] => []
  | b :: bs =>
    E (xorBytes prev b) :: cbcEncBlocks E (E (xorBytes prev b)) bs

/-- CBC chaining for decryption. -/
def cbcDecBlocks (D : Bytes → Bytes) (prev : Bytes) : List Bytes → List Bytes
  | [] => []
  | c :: cs => xorBytes prev (D c) :: cbcDecBlocks D c cs

/-- `subtle.encrypt` with AES-CBC: pad, chunk, chain, concatenate. -/
def aesCbcEncrypt (C : BlockCipher) (key iv data : Bytes) : Bytes :=
  (cbcEncBlocks (C.enc key) iv (chunk16 (pkcs7Pad data))).flatten

/-- `subtle.decrypt` with AES-CBC: reject ciphertexts whose length is zero
or not a multiple of 16, unchain, then validate and strip the padding;
`none` is the provider's OperationError rejection. -/
def aesCbcDecrypt (C : BlockCipher) (key iv data : Bytes) : Option Bytes :=
  if data.length % 16 = 0 ∧ data ≠ [] then
    pkcs7Unpad ((cbcDecBlocks (C.dec key) iv (chunk16 data)).flatten)
  else none

/-! ## Symmetric-key functions of the module (crypto.ts lines 125-191)

An AES key handle is represented by its raw exported material: 32 bytes
for the AES-256 keys `createRandomSymmetricKey` produces.  The module-level
`iv` (crypto.ts line 3, `webcrypto.getRandomValues(new Uint8Array(16))`)
is passed explicitly: it is the one piece of process state the module
has, fixed for the whole process. -/

/-- `exportSymKey` (line 137): base64 of the raw key bytes. -/
def exportSymKey (key : Bytes) : List Nat :=
  arrayBufferToBase64 key

/-- `importSymKey` (line 143): `subtle.importKey("raw", ...)` for AES-CBC,
which rejects material that is not 128/192/256 bits (the taxonomy's
KeyFormatError). -/
def importSymKey (strKey : List Nat) : Except CryptoError Bytes :=
  let b := base64ToArrayBuffer strKey
  if b.length = 16 ∨ b.length = 24 ∨ b.length = 32 then .ok b
  else .error .KeyFormatError

/-- `symEncrypt` (line 159): UTF-8 encode the text, AES-CBC encrypt it
under the module-level `iv`, base64 the result.  Note the function neither
generates nor outputs an IV. -/
def symEncrypt (C : BlockCipher) (iv : Bytes) (key : Bytes) (data : List Char) : List Nat :=
  arrayBufferToBase64 (aesCbcEncrypt C key iv (utf8Encode data))

/-- `symDecrypt` (line 176): import the key from base64, AES-CBC decrypt
under the module-level `iv`, decode the plaintext with `TextDecoder`
(non-fatal: invalid UTF-8 becomes U+FFFD, never an error). -/
def symDecrypt (C : BlockCipher) (iv : Bytes) (strKey encryptedData : List Nat) :
    Except CryptoError (List Char) :=
  match importSymKey strKey with
  | .error e => .error e
  | .ok key =>
    match aesCbcDecrypt C key iv (base64ToArrayBuffer encryptedData) with
    | none => .error .CryptoOperationError
    | some bytes => .ok (utf8Decode bytes)

/-! ## RSA-OAEP functions of the module (crypto.ts lines 30-118)

A public key handle is represented by its SPKI serialization, a private
key handle by its PKCS8 serialization.  The OAEP core is opaque and
randomized: `enc` takes the per-call random seed the provider draws
internally.  The length gate is the provider's contract for a 2048-bit
modulus with SHA-256: at most 256 - 2*32 - 2 = 190 bytes of payload. -/

/-- The RSA-OAEP primitive of the provider, abstracted.  `paired pub priv`
states that the SPKI/PKCS8 serializations come from one `generateKey`
call; `spkiOk` / `pkcs8Ok` are the provider's parsers' acceptance of key
material (`subtle.importKey` rejects what they refuse), and genuinely
exported public keys always parse (`paired_spki`). -/
structure RsaOaep where
  enc : Bytes → Bytes → Bytes → Bytes
  dec : Bytes → Bytes → Option Bytes
  paired : Bytes → Bytes → Prop
  spkiOk : Bytes → Bool
  pkcs8Ok : Bytes → Bool
  enc_lt : ∀ pub seed m, allLt256 m → allLt256 (enc pub seed m)
  dec_enc : ∀ pub priv seed m, paired pub priv → m.length ≤ 190 → allLt256 m →
    dec priv (enc pub seed m) = some m
  paired_spki : ∀ pub priv, paired pub priv → spkiOk pub = true

/-- `subtle.encrypt` with RSA-OAEP: rejects payloads above the
2048-bit/SHA-256 limit of 190 bytes, otherwise applies the (randomized)
OAEP core. -/
def rsaOaepEncrypt (R : RsaOaep) (pub seed msg : Bytes) : Option Bytes :=
  if msg.length ≤ 256 - 2 * 32 - 2 then some (R.enc pub seed msg) else none

/-- `exportPubKey` (line 49): base64 of the SPKI export. -/
def exportPubKey (key : Bytes) : List Nat :=
  arrayBufferToBase64 key

/-- `exportPrvKey` (line 54): `key ? base64(pkcs8 export) : null` — the
absent-key passthrough returns absent without error. -/
def exportPrvKey : Option Bytes → Option (List Nat)
  | some key => some (arrayBufferToBase64 key)
  | none => none

/-- `importPubKey` (line 62): decode the base64 SPKI material and parse it
back into a key handle; `subtle.importKey("spki", ...)` rejects malformed
material (the taxonomy's KeyFormatError). -/
def importPubKey (R : RsaOaep) (strKey : List Nat) : Except CryptoError Bytes :=
  let b := base64ToArrayBuffer strKey
  if R.spkiOk b then .ok b else .error .KeyFormatError

/-- `importPrvKey` (line 75): decode the base64 PKCS8 material and parse
it back into a key handle; `subtle.importKey("pkcs8", ...)` rejects
malformed material. -/
def importPrvKey (R : RsaOaep) (strKey : List Nat) : Except CryptoError Bytes :=
  let b := base64ToArrayBuffer strKey
  if R.pkcs8Ok b then .ok b else .error .KeyFormatError

/-- `rsaEncrypt` (line 88): decode the base64 payload, import the public
key — the source awaits the import before encrypting, so a malformed key
fails here, before the OAEP length gate — then RSA-OAEP encrypt (with the
provider's fresh random `seed`) and base64 the ciphertext. -/
def rsaEncrypt (R : RsaOaep) (seed : Bytes) (b64Data strPublicKey : List Nat) :
    Except CryptoError (List Nat) :=
  match importPubKey R strPublicKey with
  | .error e => .error e
  | .ok pub =>
    match rsaOaepEncrypt R pub seed (base64ToArrayBuffer b64Data) with
    | some ct => .ok (arrayBufferToBase64 ct)
    | none => .error .PayloadTooLargeError

/-- `rsaDecrypt` (line 105): decode the base64 ciphertext, RSA-OAEP decrypt
with the private key handle, base64 the plaintext; a padding/pairing
failure is the provider's OperationError. -/
def rsaDecrypt (R : RsaOaep) (data : List Nat) (privateKey : Bytes) :
    Except CryptoError (List Nat) :=
  match R.dec privateKey (base64ToArrayBuffer data) with
  | some pt => .ok (arrayBufferToBase64 pt)
  | none => .error .CryptoOperationError

/-! ## Concrete instantiations of the opaque primitives

Used to evaluate the module at concrete inputs (witnesses and
counterexamples): the identity block permutation satisfies the
`BlockCipher` contract, and a cipher that records one seed byte satisfies
the `RsaOaep` contract while exhibiting OAEP's randomization. -/

/-- The identity permutation as a `BlockCipher` instance. -/
def idCipher : BlockCipher where
  enc := fun _ b => b
  dec := fun _ b => b
  enc_len := fun _ _ h => h
  enc_lt := fun _ _ _ h => h
  dec_enc := fun _ _ _ _ => rfl

/-- An `RsaOaep` instance that prepends one byte derived from the seed:
decryption drops it, so the contract holds, while different seeds give
different ciphertexts.  Its parsers reject empty key material (as real
SPKI/PKCS8 parsing does) and accept the rest. -/
def rsaSeedModel : RsaOaep where
  enc := fun _ seed m => (seed.headD 0 % 256) :: m
  dec := fun _ c => some c.tail
  paired := fun pub _ => pub ≠ []
  spkiOk := fun b => decide (b ≠ [])
  pkcs8Ok := fun b => decide (b ≠ [])
  enc_lt := by
    intro pub seed m hm x hx
    rcases List.mem_cons.mp hx with h | h
    · subst h; exact Nat.mod_lt _ (by omega)
    · exact hm x h
  dec_enc := fun _ _ _ _ _ _ _ => rfl
  paired_spki := fun _ _ h => decide_eq_true h

/-- The all-zero 16-byte IV used for concrete evaluations. -/
def ivZero : Bytes := List.replicate 16 0

/-- A concrete 32-byte AES-256 key used for concrete evaluations. -/
def keyDemo : Bytes := List.replicate 32 7

/-- A second module-level IV (a different process's value), chosen so that
decrypting under it still recovers the text `[U+FFFD]` encrypted under
`ivZero`. -/
def ivAlt : Bytes := [0, 0, 179] ++ List.replicate 13 3

/-! ## Lemmas: base64 -/

/-- Decoding a base64 digit inverts encoding an index below 64. -/
theorem b64Val_b64Char : ∀ i < 64, b64Val (b64Char i) = some i := by decide

/-- The padding character is not a base64 digit. -/
theorem b64Val_pad : b64Val 61 = none := rfl

/-- Encoded digits are never the padding character. -/
theorem b64Char_ne_pad : ∀ i < 64, (b64Char i != 61) = true := by decide

/-- The decoder inverts the encoder on genuine bytes. -/
theorem b64_decode_encode : ∀ l : Bytes, allLt256 l →
    sextetsToBytes (((b64EncodeBytes l).takeWhile (fun c => c != 61)).filterMap b64Val) = l
  | [], _ => rfl
  | [b1], h => by
    have hb1 : b1 < 256 := h b1 (by simp)
    have e1 : b64Val (b64Char (b1 / 4)) = some (b1 / 4) := b64Val_b64Char _ (by omega)
    have e2 : b64Val (b64Char (b1 % 4 * 16)) = some (b1 % 4 * 16) :=
      b64Val_b64Char _ (by omega)
    have t1 : (b64Char (b1 / 4) != 61) = true := b64Char_ne_pad _ (by omega)
    have t2 : (b64Char (b1 % 4 * 16) != 61) = true := b64Char_ne_pad _ (by omega)
    simp [b64EncodeBytes, List.takeWhile_cons, t1, t2, List.filterMap_cons, e1, e2,
      sextetsToBytes]
    omega
  | [b1, b2], h => by
    have hb1 : b1 < 256 := h b1 (by simp)
    have hb2 : b2 < 256 := h b2 (by simp)
    have e1 : b64Val (b64Char (b1 / 4)) = some (b1 / 4) := b64Val_b64Char _ (by omega)
    have e2 : b64Val (b64Char (b1 % 4 * 16 + b2 / 16)) = some (b1 % 4 * 16 + b2 / 16) :=
      b64Val_b64Char _ (by omega)
    have e3 : b64Val (b64Char (b2 % 16 * 4)) = some (b2 % 16 * 4) :=
      b64Val_b64Char _ (by omega)
    have t1 : (b64Char (b1 / 4) != 61) = true := b64Char_ne_pad _ (by omega)
    have t2 : (b64Char (b1 % 4 * 16 + b2 / 16) != 61) = true := b64Char_ne_pad _ (by omega)
    have t3 : (b64Char (b2 % 16 * 4) != 61) = true := b64Char_ne_pad _ (by omega)
    simp [b64EncodeBytes, List.takeWhile_cons, t1, t2, t3, List.filterMap_cons, e1, e2, e3,
      sextetsToBytes]
    omega
  | b1 :: b2 :: b3 :: rest, h => by
    have hb1 : b1 < 256 := h b1 (by simp)
    have hb2 : b2 < 256 := h b2 (by simp)
    have hb3 : b3 < 256 := h b3 (by simp)
    have ih := b64_decode_encode rest (fun x hx => h x (by simp [hx]))
    have e1 : b64Val (b64Char (b1 / 4)) = some (b1 / 4) := b64Val_b64Char _ (by omega)
    have e2 : b64Val (b64Char (b1 % 4 * 16 + b2 / 16)) = some (b1 % 4 * 16 + b2 / 16) :=
      b64Val_b64Char _ (by omega)
    have e3 : b64Val (b64Char (b2 % 16 * 4 + b3 / 64)) = some (b2 % 16 * 4 + b3 / 64) :=
      b64Val_b64Char _ (by omega)
    have e4 : b64Val (b64Char (b3 % 64)) = some (b3 % 64) := b64Val_b64Char _ (by omega)
    have t1 : (b64Char (b1 / 4) != 61) = true := b64Char_ne_pad _ (by omega)
    have t2 : (b64Char (b1 % 4 * 16 + b2 / 16) != 61) = true := b64Char_ne_pad _ (by omega)
    have t3 : (b64Char (b2 % 16 * 4 + b3 / 64) != 61) = true := b64Char_ne_pad _ (by omega)
    have t4 : (b64Char (b3 % 64) != 61) = true := b64Char_ne_pad _ (by omega)
    simp only [b64EncodeBytes, List.takeWhile_cons, t1, t2, t3, t4, if_true,
      List.filterMap_cons, e1, e2, e3, e4, sextetsToBytes]
    refine congrArg₂ _ (by omega) (congrArg₂ _ (by omega) (congrArg₂ _ (by omega) ih))

/-- Round-trip law of the codec on genuine byte buffers. -/
theorem base64_roundtrip (l : Bytes) (h : allLt256 l) :
    base64ToArrayBuffer (arrayBufferToBase64 l) = l :=
  b64_decode_encode l h

/-- The lenient decoder only ever looks at alphabet characters. -/
theorem filterMap_b64Val_filter (s : List Nat) :
    (s.filter isB64Alpha).filterMap b64Val = s.filterMap b64Val := by
  induction s with
  | nil => rfl
  | cons c t ih =>
    by_cases hc : isB64Alpha c
    · have ⟨v, hv⟩ := Option.isSome_iff_exists.mp hc
      simp [List.filter_cons, hc, List.filterMap_cons, hv, ih]
    · have hv : b64Val c = none := by
        cases hb : b64Val c with
        | none => rfl
        | some v => exact absurd (by simp [isB64Alpha, hb]) hc
      simp [List.filter_cons, hc, List.filterMap_cons, hv, ih]

/-- Characters the decoder maps to sextets are never the padding
character. -/
theorem isB64Alpha_ne_pad (x : Nat) (hx : isB64Alpha x = true) : (x != 61) = true := by
  by_cases h : x = 61
  · subst h
    exact absurd hx (by decide)
  · simpa using h

/-- `takeWhile` keeps a list that is free of the padding character. -/
theorem takeWhile_ne_pad_eq_self : ∀ l : List Nat, (∀ x ∈ l, (x != 61) = true) →
    l.takeWhile (fun c => c != 61) = l
  | [], _ => rfl
  | c :: t, h => by
    have hc := h c (by simp)
    simp [List.takeWhile_cons, hc,
      takeWhile_ne_pad_eq_self t (fun x hx => h x (by simp [hx]))]

/-! ## Lemmas: UTF-8 -/

/-- The scalar value of a `Char` avoids the surrogate range and the
Unicode ceiling. -/
theorem char_toNat_valid (c : Char) :
    c.toNat < 55296 ∨ (57343 < c.toNat ∧ c.toNat < 1114112) :=
  c.valid

/-- A decoder step never consumes bytes it was not given. -/
theorem utf8Step_snd_len (b : Nat) (t : Bytes) : (utf8Step b t).2.length ≤ t.length := by
  unfold utf8Step
  repeat' split
  all_goals simp_all
  all_goals omega

/-- The fuel argument of the decoder is irrelevant once it covers the
input length. -/
theorem utf8DecodeGo_congr : ∀ f1 f2 (l : Bytes), l.length ≤ f1 → l.length ≤ f2 →
    utf8DecodeGo f1 l = utf8DecodeGo f2 l := by
  intro f1
  induction f1 with
  | zero =>
    intro f2 l h1 _
    have hl : l = [] := List.length_eq_zero.mp (by omega)
    subst hl
    cases f2 <;> rfl
  | succ f ih =>
    intro f2 l h1 h2
    cases l with
    | nil => cases f2 <;> rfl
    | cons b t =>
      cases f2 with
      | zero => simp at h2
      | succ g =>
        simp only [utf8DecodeGo]
        have hs := utf8Step_snd_len b t
        have h1' : (utf8Step b t).2.length ≤ f := by simp at h1; omega
        have h2' : (utf8Step b t).2.length ≤ g := by simp at h2; omega
        rw [ih g _ h1' h2']

/-- Unfolding equation for the raw decoder. -/
theorem utf8DecodeRaw_cons (b : Nat) (t : Bytes) :
    utf8DecodeRaw (b :: t) = (utf8Step b t).1 :: utf8DecodeRaw (utf8Step b t).2 := by
  show utf8DecodeGo (b :: t).length (b :: t) = _
  simp only [List.length_cons, utf8DecodeGo]
  rw [utf8DecodeGo_congr t.length (utf8Step b t).2.length _ (utf8Step_snd_len b t) le_rfl]
  rfl

/-- Step lemma, one-byte sequences. -/
theorem utf8Step_one (n : Nat) (h : n < 128) (r : Bytes) :
    utf8Step n r = (Char.ofNat n, r) := by
  simp [utf8Step, h]

/-- Step lemma, two-byte sequences. -/
theorem utf8Step_two (n : Nat) (h1 : 128 ≤ n) (h2 : n < 2048) (r : Bytes) :
    utf8Step (192 + n / 64) ((128 + n % 64) :: r) = (Char.ofNat n, r) := by
  have c1 : ¬ (192 + n / 64 < 128) := by omega
  have c2 : 194 ≤ 192 + n / 64 ∧ 192 + n / 64 ≤ 223 := by omega
  have c3 : 128 ≤ 128 + n % 64 ∧ 128 + n % 64 ≤ 191 := by omega
  simp [utf8Step, c1, c2, c3]
  congr 1
  omega

/-- Step lemma, three-byte sequences (surrogates excluded by validity). -/
theorem utf8Step_three (n : Nat) (h1 : 2048 ≤ n) (h2 : n < 65536)
    (hv : n < 55296 ∨ (57343 < n ∧ n < 1114112)) (r : Bytes) :
    utf8Step (224 + n / 4096) ((128 + n / 64 % 64) :: (128 + n % 64) :: r) =
      (Char.ofNat n, r) := by
  have c1 : ¬ (224 + n / 4096 < 128) := by omega
  have c2 : ¬ (194 ≤ 224 + n / 4096 ∧ 224 + n / 4096 ≤ 223) := by omega
  have c3 : 224 ≤ 224 + n / 4096 ∧ 224 + n / 4096 ≤ 239 := by omega
  have c4 : (if 224 + n / 4096 = 224 then 160 else 128) ≤ 128 + n / 64 % 64 ∧
      128 + n / 64 % 64 ≤ (if 224 + n / 4096 = 237 then 159 else 191) := by
    constructor
    · split <;> omega
    · split <;> omega
  have c5 : 128 ≤ 128 + n % 64 ∧ 128 + n % 64 ≤ 191 := by omega
  simp [utf8Step, c1, c2, c3, c4, c5]
  have hcond : (if n / 4096 = 0 then 160 else 128) ≤ 128 + n / 64 % 64 := by
    split <;> omega
  rw [if_pos hcond]
  have harg : n / 4096 * 4096 + n / 64 % 64 * 64 + n % 64 = n := by omega
  rw [harg]

/-- Step lemma, four-byte sequences. -/
theorem utf8Step_four (n : Nat) (h1 : 65536 ≤ n) (h2 : n < 1114112) (r : Bytes) :
    utf8Step (240 + n / 262144)
      ((128 + n / 4096 % 64) :: (128 + n / 64 % 64) :: (128 + n % 64) :: r) =
      (Char.ofNat n, r) := by
  have c1 : ¬ (240 + n / 262144 < 128) := by omega
  have c2 : ¬ (194 ≤ 240 + n / 262144 ∧ 240 + n / 262144 ≤ 223) := by omega
  have c3 : ¬ (224 ≤ 240 + n / 262144 ∧ 240 + n / 262144 ≤ 239) := by omega
  have c4 : 240 ≤ 240 + n / 262144 ∧ 240 + n / 262144 ≤ 244 := by omega
  have c5 : (if 240 + n / 262144 = 240 then 144 else 128) ≤ 128 + n / 4096 % 64 ∧
      128 + n / 4096 % 64 ≤ (if 240 + n / 262144 = 244 then 143 else 191) := by
    constructor
    · split <;> omega
    · split <;> omega
  have c6 : 128 ≤ 128 + n / 64 % 64 ∧ 128 + n / 64 % 64 ≤ 191 := by omega
  have c7 : 128 ≤ 128 + n % 64 ∧ 128 + n % 64 ≤ 191 := by omega
  simp [utf8Step, c1, c2, c3, c4, c5, c6, c7]
  have hcond : (if n / 262144 = 0 then 144 else 128) ≤ 128 + n / 4096 % 64 := by
    split <;> omega
  rw [if_pos hcond]
  have harg : n / 262144 * 262144 + n / 4096 % 64 * 4096 + n / 64 % 64 * 64 + n % 64 = n := by
    omega
  rw [harg]

/-- The raw decoder consumes exactly one encoded character and reproduces it. -/
theorem utf8DecodeRaw_encodeChar (c : Char) (r : Bytes) :
    utf8DecodeRaw (utf8EncodeChar c ++ r) = c :: utf8DecodeRaw r := by
  have hv := char_toNat_valid c
  by_cases h1 : c.toNat < 128
  · have henc : utf8EncodeChar c = [c.toNat] := by simp [utf8EncodeChar, h1]
    rw [henc, List.singleton_append, utf8DecodeRaw_cons, utf8Step_one c.toNat h1 r]
    simp [Char.ofNat_toNat]
  · by_cases h2 : c.toNat < 2048
    · have henc : utf8EncodeChar c = [192 + c.toNat / 64, 128 + c.toNat % 64] := by
        simp [utf8EncodeChar, h1, h2]
      rw [henc, List.cons_append, List.singleton_append, utf8DecodeRaw_cons,
        utf8Step_two c.toNat (by omega) h2 r]
      simp [Char.ofNat_toNat]
    · by_cases h3 : c.toNat < 65536
      · have henc : utf8EncodeChar c =
            [224 + c.toNat / 4096, 128 + c.toNat / 64 % 64, 128 + c.toNat % 64] := by
          simp [utf8EncodeChar, h1, h2, h3]
        rw [henc, List.cons_append, List.cons_append, List.singleton_append,
          utf8DecodeRaw_cons, utf8Step_three c.toNat (by omega) h3 hv r]
        simp [Char.ofNat_toNat]
      · have henc : utf8EncodeChar c = [240 + c.toNat / 262144, 128 + c.toNat / 4096 % 64,
            128 + c.toNat / 64 % 64, 128 + c.toNat % 64] := by
          simp [utf8EncodeChar, h1, h2, h3]
        rw [henc, List.cons_append, List.cons_append, List.cons_append,
          List.singleton_append, utf8DecodeRaw_cons,
          utf8Step_four c.toNat (by omega) (by omega) r]
        simp [Char.ofNat_toNat]

/-- The raw decoder inverts `TextEncoder` on every string. -/
theorem utf8DecodeRaw_roundtrip (s : List Char) : utf8DecodeRaw (utf8Encode s) = s := by
  induction s with
  | nil => rfl
  | cons c t ih =>
    show utf8DecodeRaw (utf8EncodeChar c ++ utf8Encode t) = c :: t
    rw [utf8DecodeRaw_encodeChar, ih]

/-- The byte-order mark U+FEFF encodes as EF BB BF. -/
theorem utf8EncodeChar_bom : utf8EncodeChar (Char.ofNat 65279) = [239, 187, 191] := by
  decide

/-- Only U+FEFF produces the byte-order-mark prefix: the encoding of a
string whose first character is not U+FEFF never starts with EF BB BF. -/
theorem utf8EncodeChar_not_bom (c : Char) (hc : c ≠ Char.ofNat 65279) (t : Bytes) :
    ¬ ((utf8EncodeChar c ++ t).take 3 = [239, 187, 191]) := by
  have hv := char_toNat_valid c
  intro h
  by_cases h1 : c.toNat < 128
  · have henc : utf8EncodeChar c = [c.toNat] := by simp [utf8EncodeChar, h1]
    rw [henc, List.singleton_append] at h
    simp [List.take_succ_cons] at h
    omega
  · by_cases h2 : c.toNat < 2048
    · have henc : utf8EncodeChar c = [192 + c.toNat / 64, 128 + c.toNat % 64] := by
        simp [utf8EncodeChar, h1, h2]
      rw [henc, List.cons_append, List.cons_append] at h
      simp [List.take_succ_cons] at h
      omega
    · by_cases h3 : c.toNat < 65536
      · have henc : utf8EncodeChar c =
            [224 + c.toNat / 4096, 128 + c.toNat / 64 % 64, 128 + c.toNat % 64] := by
          simp [utf8EncodeChar, h1, h2, h3]
        rw [henc, List.cons_append, List.cons_append, List.cons_append] at h
        simp [List.take_succ_cons] at h
        have hn : c.toNat = 65279 := by omega
        exact hc (by rw [← Char.ofNat_toNat c, hn])
      · have henc : utf8EncodeChar c = [240 + c.toNat / 262144, 128 + c.toNat / 4096 % 64,
            128 + c.toNat / 64 % 64, 128 + c.toNat % 64] := by
          simp [utf8EncodeChar, h1, h2, h3]
        rw [henc, List.cons_append, List.cons_append, List.cons_append,
          List.cons_append] at h
        simp [List.take_succ_cons] at h
        omega

/-- `TextDecoder` inverts `TextEncoder` up to the default BOM handling:
the decoded text is the original string, with a leading U+FEFF removed
when there is one. -/
theorem utf8_roundtrip (s : List Char) :
    utf8Decode (utf8Encode s) =
      if s.head? = some (Char.ofNat 65279) then s.tail else s := by
  cases s with
  | nil => simp [utf8Decode, utf8Encode, utf8DecodeRaw, utf8DecodeGo]
  | cons c rest =>
    by_cases hc : c = Char.ofNat 65279
    · subst hc
      have he : utf8Encode (Char.ofNat 65279 :: rest) = [239, 187, 191] ++ utf8Encode rest := by
        show utf8EncodeChar (Char.ofNat 65279) ++ utf8Encode rest = _
        rw [utf8EncodeChar_bom]
      have htake : List.take 3 ([239, 187, 191] ++ utf8Encode rest) = [239, 187, 191] :=
        List.take_left' (by rfl)
      have hdrop : List.drop 3 ([239, 187, 191] ++ utf8Encode rest) = utf8Encode rest :=
        List.drop_left' (by rfl)
      rw [he, utf8Decode, if_pos htake, hdrop, utf8DecodeRaw_roundtrip]
      simp
    · have he : utf8Encode (c :: rest) = utf8EncodeChar c ++ utf8Encode rest := rfl
      rw [he, utf8Decode, if_neg (utf8EncodeChar_not_bom c hc _),
        utf8DecodeRaw_encodeChar, utf8DecodeRaw_roundtrip]
      simp [hc]

/-- UTF-8 encodings consist of genuine bytes: per character. -/
theorem utf8EncodeChar_lt (c : Char) : allLt256 (utf8EncodeChar c) := by
  have hv := char_toNat_valid c
  intro x hx
  simp only [utf8EncodeChar] at hx
  split_ifs at hx <;> simp at hx <;> omega

/-- UTF-8 encodings consist of genuine bytes. -/
theorem utf8Encode_lt (s : List Char) : allLt256 (utf8Encode s) := by
  intro x hx
  simp only [utf8Encode, List.mem_flatten] at hx
  obtain ⟨l, hl, hxl⟩ := hx
  simp only [List.mem_map] at hl
  obtain ⟨c, _, rfl⟩ := hl
  exact utf8EncodeChar_lt c x hxl

/-! ## Lemmas: PKCS#7 padding, 16-byte chunking, xor -/

/-- Padded length: the original length plus the pad width. -/
theorem pkcs7Pad_length (d : Bytes) :
    (pkcs7Pad d).length = d.length + (16 - d.length % 16) := by
  simp [pkcs7Pad]

/-- Padding always produces a multiple of the block size. -/
theorem pkcs7Pad_mod (d : Bytes) : (pkcs7Pad d).length % 16 = 0 := by
  rw [pkcs7Pad_length]; omega

/-- Padding never produces the empty buffer. -/
theorem pkcs7Pad_ne_nil (d : Bytes) : pkcs7Pad d ≠ [] := by
  intro h
  have := congrArg List.length h
  rw [pkcs7Pad_length] at this
  simp at this
  omega

/-- Padding preserves byte bounds (pad bytes are at most 16). -/
theorem pkcs7Pad_lt (d : Bytes) (h : allLt256 d) : allLt256 (pkcs7Pad d) := by
  intro x hx
  rcases List.mem_append.mp hx with hx | hx
  · exact h x hx
  · have := List.eq_of_mem_replicate hx
    omega

/-- PKCS#7 removal inverts PKCS#7 padding. -/
theorem pkcs7Unpad_pad (d : Bytes) : pkcs7Unpad (pkcs7Pad d) = some d := by
  unfold pkcs7Pad pkcs7Unpad
  set p := 16 - d.length % 16 with hpdef
  have hp1 : 1 ≤ p := by omega
  have hp16 : p ≤ 16 := by omega
  obtain ⟨k, hk⟩ : ∃ k, p = k + 1 := ⟨p - 1, by omega⟩
  have hlast : (d ++ List.replicate p p).getLast? = some p := by
    conv_lhs => rw [hk, List.replicate_succ']
    rw [← List.append_assoc, List.getLast?_concat, hk]
  have hlen : (d ++ List.replicate p p).length = d.length + p := by simp
  have hsub : d.length + p - p = d.length := by omega
  simp only [hlast]
  rw [if_pos]
  · rw [hlen, hsub, List.take_left' rfl]
  · refine ⟨hp1, hp16, by rw [hlen]; omega, ?_⟩
    rw [hlen, hsub, List.drop_left' rfl]
    simp

/-- The fuel argument of the chunker is irrelevant once it covers the
input length. -/
theorem chunk16Go_congr : ∀ f1 f2 (l : Bytes), l.length ≤ f1 → l.length ≤ f2 →
    chunk16Go f1 l = chunk16Go f2 l := by
  intro f1
  induction f1 with
  | zero =>
    intro f2 l h1 _
    have hl : l = [] := List.length_eq_zero.mp (by omega)
    subst hl
    cases f2 <;> rfl
  | succ f ih =>
    intro f2 l h1 h2
    cases l with
    | nil => cases f2 <;> rfl
    | cons b t =>
      cases f2 with
      | zero => simp at h2
      | succ g =>
        simp only [chunk16Go]
        rw [ih g _ (by simp at h1 ⊢; omega) (by simp at h2 ⊢; omega)]

/-- Unfolding equation for the chunker. -/
theorem chunk16_cons_eq (l : Bytes) (h : l ≠ []) :
    chunk16 l = l.take 16 :: chunk16 (l.drop 16) := by
  cases l with
  | nil => exact absurd rfl h
  | cons b t =>
    show chunk16Go (t.length + 1) (b :: t) = _
    simp only [chunk16Go]
    rw [chunk16Go_congr t.length ((b :: t).drop 16).length _
      (by simp only [List.length_drop, List.length_cons]; omega) le_rfl]
    rfl

/-- Concatenating the chunks restores the buffer. -/
theorem chunk16_flatten : ∀ l : Bytes, (chunk16 l).flatten = l
  | [] => rfl
  | b :: t => by
    rw [chunk16_cons_eq _ (by simp), List.flatten_cons,
      chunk16_flatten ((b :: t).drop 16)]
    exact List.take_append_drop 16 (b :: t)
termination_by l => l.length
decreasing_by simp; omega

/-- On buffers whose length is a multiple of 16, every chunk has length 16. -/
theorem chunk16_len : ∀ l : Bytes, l.length % 16 = 0 → ∀ B ∈ chunk16 l, B.length = 16
  | [], _, B, hB => by simp [chunk16, chunk16Go] at hB
  | b :: t, h, B, hB => by
    rw [chunk16_cons_eq _ (by simp)] at hB
    rcases List.mem_cons.mp hB with rfl | hB'
    · simp only [List.length_take, List.length_cons]
      simp at h
      omega
    · exact chunk16_len _ (by simp at h ⊢; omega) B hB'
termination_by l => l.length
decreasing_by simp; omega

/-- Chunks consist of genuine bytes when the buffer does. -/
theorem chunk16_lt : ∀ l : Bytes, allLt256 l → ∀ B ∈ chunk16 l, allLt256 B
  | [], _, B, hB => by simp [chunk16, chunk16Go] at hB
  | b :: t, h, B, hB => by
    rw [chunk16_cons_eq _ (by simp)] at hB
    rcases List.mem_cons.mp hB with rfl | hB'
    · exact fun x hx => h x (List.take_subset _ _ hx)
    · exact chunk16_lt _ (fun x hx => h x (List.drop_subset _ _ hx)) B hB'
termination_by l => l.length
decreasing_by simp; omega

/-- Chunking the concatenation of 16-byte blocks restores the blocks. -/
theorem chunk16_of_flatten : ∀ bs : List Bytes, (∀ B ∈ bs, B.length = 16) →
    chunk16 bs.flatten = bs
  | [], _ => rfl
  | B :: bs, h => by
    have hB : B.length = 16 := h B (by simp)
    have hBne : B ≠ [] := by
      intro e
      rw [e] at hB
      simp at hB
    rw [List.flatten_cons, chunk16_cons_eq _ (fun e => hBne (List.append_eq_nil.mp e).1),
      List.take_left' hB, List.drop_left' hB,
      chunk16_of_flatten bs (fun B' hB' => h B' (by simp [hB']))]

/-- Concatenated 16-byte blocks have length 16 times the block count. -/
theorem flatten_blocks_length : ∀ bs : List Bytes, (∀ B ∈ bs, B.length = 16) →
    bs.flatten.length = 16 * bs.length
  | [], _ => rfl
  | B :: bs, h => by
    rw [List.flatten_cons, List.length_append, h B (by simp),
      flatten_blocks_length bs (fun B' hB' => h B' (by simp [hB']))]
    simp
    omega

/-- Length of a bytewise xor. -/
theorem length_xorBytes (a b : Bytes) :
    (xorBytes a b).length = min a.length b.length := by
  simp [xorBytes]

/-- Bytewise xor preserves byte bounds. -/
theorem xorBytes_lt : ∀ a b : Bytes, allLt256 a → allLt256 b → allLt256 (xorBytes a b)
  | [], _, _, _ => by intro x hx; simp [xorBytes] at hx
  | _ :: _, [], _, _ => by intro x hx; simp [xorBytes] at hx
  | x :: xs, y :: ys, ha, hb => by
    intro z hz
    simp only [xorBytes, List.zipWith_cons_cons, List.mem_cons] at hz
    rcases hz with rfl | hz'
    · have hx : x < 2 ^ 8 := ha x (by simp)
      have hy : y < 2 ^ 8 := hb y (by simp)
      exact Nat.xor_lt_two_pow hx hy
    · exact xorBytes_lt xs ys (fun u hu => ha u (by simp [hu]))
        (fun u hu => hb u (by simp [hu])) z hz'

/-- Xoring twice with the same mask restores the buffer. -/
theorem xorBytes_cancel : ∀ a b : Bytes, a.length = b.length →
    xorBytes a (xorBytes a b) = b
  | [], [], _ => rfl
  | [], _ :: _, h => by simp at h
  | _ :: _, [], h => by simp at h
  | x :: xs, y :: ys, h => by
    simp only [xorBytes, List.zipWith_cons_cons]
    congr 1
    · rw [← Nat.xor_assoc, Nat.xor_self, Nat.zero_xor]
    · exact xorBytes_cancel xs ys (by simpa using h)

/-! ## Lemmas: CBC chaining and the AES-CBC mode -/

/-- CBC encryption produces one ciphertext block per plaintext block. -/
theorem cbcEncBlocks_length (E : Bytes → Bytes) :
    ∀ (bs : List Bytes) (prev : Bytes), (cbcEncBlocks E prev bs).length = bs.length
  | [], _ => rfl
  | b :: bs, prev => by
    simp only [cbcEncBlocks, List.length_cons, cbcEncBlocks_length E bs]

/-- CBC ciphertext blocks are 16 genuine bytes when the chaining value and
the plaintext blocks are. -/
theorem cbcEncBlocks_blocks (C : BlockCipher) (k : Bytes) :
    ∀ (bs : List Bytes) (prev : Bytes), prev.length = 16 → allLt256 prev →
      (∀ B ∈ bs, B.length = 16 ∧ allLt256 B) →
      ∀ B' ∈ cbcEncBlocks (C.enc k) prev bs, B'.length = 16 ∧ allLt256 B'
  | [], _, _, _, _ => by intro B' hB'; simp [cbcEncBlocks] at hB'
  | b :: bs, prev, hp, hpl, hbs => by
    have hb := hbs b (by simp)
    have hxlen : (xorBytes prev b).length = 16 := by
      rw [length_xorBytes, hp, hb.1]; rfl
    have hxlt : allLt256 (xorBytes prev b) := xorBytes_lt _ _ hpl hb.2
    intro B' hB'
    rcases List.mem_cons.mp hB' with rfl | hB'
    · exact ⟨C.enc_len k _ hxlen, C.enc_lt k _ hxlen hxlt⟩
    · exact cbcEncBlocks_blocks C k bs _ (C.enc_len k _ hxlen)
        (C.enc_lt k _ hxlen hxlt) (fun B hB => hbs B (by simp [hB])) B' hB'

/-- CBC decryption inverts CBC encryption blockwise. -/
theorem cbcDec_cbcEnc (C : BlockCipher) (k : Bytes) :
    ∀ (bs : List Bytes) (prev : Bytes), prev.length = 16 → allLt256 prev →
      (∀ B ∈ bs, B.length = 16 ∧ allLt256 B) →
      cbcDecBlocks (C.dec k) prev (cbcEncBlocks (C.enc k) prev bs) = bs
  | [], _, _, _, _ => rfl
  | b :: bs, prev, hp, hpl, hbs => by
    have hb := hbs b (by simp)
    have hxlen : (xorBytes prev b).length = 16 := by
      rw [length_xorBytes, hp, hb.1]; rfl
    have hxlt : allLt256 (xorBytes prev b) := xorBytes_lt _ _ hpl hb.2
    simp only [cbcEncBlocks, cbcDecBlocks]
    rw [C.dec_enc k _ hxlen hxlt]
    congr 1
    · exact xorBytes_cancel prev b (by rw [hp, hb.1])
    · exact cbcDec_cbcEnc C k bs _ (C.enc_len k _ hxlen)
        (C.enc_lt k _ hxlen hxlt) (fun B hB => hbs B (by simp [hB]))

/-- The chunks of a padded buffer are 16-byte blocks of genuine bytes. -/
theorem pad_chunks_blocks (d : Bytes) (hd : allLt256 d) :
    ∀ B ∈ chunk16 (pkcs7Pad d), B.length = 16 ∧ allLt256 B :=
  fun B hB => ⟨chunk16_len _ (pkcs7Pad_mod d) B hB,
    chunk16_lt _ (pkcs7Pad_lt d hd) B hB⟩

/-- AES-CBC ciphertexts consist of genuine bytes. -/
theorem aesCbcEncrypt_lt (C : BlockCipher) (k iv d : Bytes) (hiv : iv.length = 16)
    (hivl : allLt256 iv) (hd : allLt256 d) : allLt256 (aesCbcEncrypt C k iv d) := by
  intro x hx
  simp only [aesCbcEncrypt, List.mem_flatten] at hx
  obtain ⟨B, hB, hxB⟩ := hx
  exact (cbcEncBlocks_blocks C k _ iv hiv hivl (pad_chunks_blocks d hd) B hB).2 x hxB

/-- The AES-CBC ciphertext length is exactly the padded plaintext length:
the plaintext length rounded up to the next multiple of 16.  In particular
the ciphertext has no room for anything besides the encrypted payload. -/
theorem aesCbcEncrypt_length (C : BlockCipher) (k iv d : Bytes) (hiv : iv.length = 16)
    (hivl : allLt256 iv) (hd : allLt256 d) :
    (aesCbcEncrypt C k iv d).length = d.length + (16 - d.length % 16) := by
  have hblocks := pad_chunks_blocks d hd
  have hct := cbcEncBlocks_blocks C k _ iv hiv hivl hblocks
  unfold aesCbcEncrypt
  rw [flatten_blocks_length _ (fun B hB => (hct B hB).1), cbcEncBlocks_length,
    ← flatten_blocks_length _ (fun B hB => (hblocks B hB).1), chunk16_flatten,
    pkcs7Pad_length]

/-- AES-CBC decryption inverts AES-CBC encryption under the same key and
the same IV. -/
theorem aesCbc_roundtrip (C : BlockCipher) (k iv d : Bytes) (hiv : iv.length = 16)
    (hivl : allLt256 iv) (hd : allLt256 d) :
    aesCbcDecrypt C k iv (aesCbcEncrypt C k iv d) = some d := by
  have hblocks := pad_chunks_blocks d hd
  have hct := cbcEncBlocks_blocks C k _ iv hiv hivl hblocks
  have hlen : (aesCbcEncrypt C k iv d).length = d.length + (16 - d.length % 16) :=
    aesCbcEncrypt_length C k iv d hiv hivl hd
  unfold aesCbcDecrypt
  rw [if_pos]
  · show pkcs7Unpad ((cbcDecBlocks (C.dec k) iv (chunk16 (aesCbcEncrypt C k iv d))).flatten)
      = some d
    unfold aesCbcEncrypt
    rw [chunk16_of_flatten _ (fun B hB => (hct B hB).1),
      cbcDec_cbcEnc C k _ iv hiv hivl hblocks, chunk16_flatten, pkcs7Unpad_pad]
  · constructor
    · rw [hlen]; omega
    · rw [← List.length_pos, hlen]; omega

/-! ## Lemmas: key import/export -/

/-- Importing an exported 32-byte AES key restores the key. -/
theorem importSymKey_exportSymKey (key : Bytes) (hl : key.length = 32) (hb : allLt256 key) :
    importSymKey (exportSymKey key) = .ok key := by
  simp [importSymKey, exportSymKey, base64_roundtrip key hb, hl]

/-- The only failure of symmetric key import is the key-format condition. -/
theorem importSymKey_error (strKey : List Nat) (e : CryptoError)
    (he : importSymKey strKey = .error e) : e = CryptoError.KeyFormatError := by
  unfold importSymKey at he
  simp only [] at he
  split at he
  · exact absurd he (by simp)
  · exact (Except.error.inj he).symm

/-! ## Claims -/

/-- C1: the claim demands a freshly generated IV per `symEncrypt` call,
distinct ciphertexts for two identical calls, and the IV transmitted
alongside the ciphertext.  The code violates all three: evaluated at a
concrete key and plaintext, two calls in one process are the very same
function of the single module-level IV and hence byte-identical, and the
ciphertext decodes to exactly the padded payload (16 bytes for a 2-byte
plaintext) with no IV carried alongside. -/
theorem c1_shared_iv_code_bug :
    symEncrypt idCipher ivZero keyDemo [Char.ofNat 104, Char.ofNat 105] =
      symEncrypt idCipher ivZero keyDemo [Char.ofNat 104, Char.ofNat 105] ∧
    base64ToArrayBuffer (symEncrypt idCipher ivZero keyDemo [Char.ofNat 104, Char.ofNat 105]) =
      [104, 105] ++ List.replicate 14 14 :=
  ⟨rfl, by decide⟩

/-- C2 counterexample: the round trip is not the identity on every text:
for the text `[U+FEFF]`, `symDecrypt (exportSymKey k) (symEncrypt k s)`
returns the empty text — the default `TextDecoder` strips the leading
byte-order mark the encoder produced. -/
theorem c2_counterexample :
    symDecrypt idCipher ivZero (exportSymKey keyDemo)
      (symEncrypt idCipher ivZero keyDemo [Char.ofNat 65279]) = .ok [] ∧
    ([] : List Char) ≠ [Char.ofNat 65279] :=
  ⟨rfl, by decide⟩

/-- C2 amended: for every 32-byte symmetric key (as produced by
`createRandomSymmetricKey`) and every text, decrypting with the exported
base64 key recovers the text up to the default `TextDecoder` BOM
handling: the result is the original text, with a leading U+FEFF removed
when the text starts with one; in particular the round trip is exact for
every text not beginning with U+FEFF. -/
theorem c2_sym_roundtrip (C : BlockCipher) (iv key : Bytes) (s : List Char)
    (hkey : key.length = 32) (hkeyb : allLt256 key)
    (hiv : iv.length = 16) (hivb : allLt256 iv) :
    symDecrypt C iv (exportSymKey key) (symEncrypt C iv key s) =
      .ok (if s.head? = some (Char.ofNat 65279) then s.tail else s) := by
  have h1 : importSymKey (exportSymKey key) = .ok key :=
    importSymKey_exportSymKey key hkey hkeyb
  have h2 : base64ToArrayBuffer (symEncrypt C iv key s) =
      aesCbcEncrypt C key iv (utf8Encode s) := by
    unfold symEncrypt
    exact base64_roundtrip _ (aesCbcEncrypt_lt C key iv _ hiv hivb (utf8Encode_lt s))
  have h3 : aesCbcDecrypt C key iv (aesCbcEncrypt C key iv (utf8Encode s)) =
      some (utf8Encode s) :=
    aesCbc_roundtrip C key iv _ hiv hivb (utf8Encode_lt s)
  simp only [symDecrypt, h1, h2, h3, utf8_roundtrip]

/-- C2 witness: the round trip evaluated at a concrete key, IV and a text
that does not start with a byte-order mark, where it is exact. -/
theorem c2_sym_roundtrip_witness :
    symDecrypt idCipher ivZero (exportSymKey keyDemo)
      (symEncrypt idCipher ivZero keyDemo [Char.ofNat 104, Char.ofNat 105]) =
      .ok [Char.ofNat 104, Char.ofNat 105] :=
  (c2_sym_roundtrip idCipher ivZero keyDemo [Char.ofNat 104, Char.ofNat 105]
    (by decide) (by decide) (by decide) (by decide)).trans (by rw [if_neg (by decide)])

/-- C3: for every payload of at most 190 bytes and every paired key
serialization, `rsaDecrypt (rsaEncrypt (base64 p) (exportPubKey pub)) priv`
yields `base64 p`, whatever seed the provider draws for OAEP. -/
theorem c3_rsa_roundtrip (R : RsaOaep) (pub priv seed p : Bytes)
    (hpair : R.paired pub priv) (hlen : p.length ≤ 190)
    (hp : allLt256 p) (hpub : allLt256 pub) :
    ∃ ct, rsaEncrypt R seed (arrayBufferToBase64 p) (exportPubKey pub) = .ok ct ∧
      rsaDecrypt R ct priv = .ok (arrayBufferToBase64 p) := by
  have h1 : base64ToArrayBuffer (arrayBufferToBase64 p) = p := base64_roundtrip p hp
  have h2 : importPubKey R (exportPubKey pub) = .ok pub := by
    simp [importPubKey, exportPubKey, base64_roundtrip pub hpub,
      R.paired_spki pub priv hpair]
  have h3 : rsaOaepEncrypt R pub seed p = some (R.enc pub seed p) := by
    unfold rsaOaepEncrypt
    rw [if_pos (by omega)]
  refine ⟨arrayBufferToBase64 (R.enc pub seed p), ?_, ?_⟩
  · simp [rsaEncrypt, h1, h2, h3]
  · have h4 : base64ToArrayBuffer (arrayBufferToBase64 (R.enc pub seed p)) =
        R.enc pub seed p := base64_roundtrip _ (R.enc_lt pub seed p hp)
    have h5 := R.dec_enc pub priv seed p hpair hlen hp
    simp [rsaDecrypt, h4, h5]

/-- C3 witness: the asymmetric round trip evaluated at a concrete pair,
seed and payload. -/
theorem c3_rsa_roundtrip_witness :
    ∃ ct, rsaEncrypt rsaSeedModel [9] (arrayBufferToBase64 [72, 105])
        (exportPubKey [1, 2, 3]) = .ok ct ∧
      rsaDecrypt rsaSeedModel ct [4, 5] = .ok (arrayBufferToBase64 [72, 105]) :=
  c3_rsa_roundtrip rsaSeedModel [1, 2, 3] [4, 5] [9] [72, 105]
    (List.cons_ne_nil 1 [2, 3]) (by decide) (by decide) (by decide)

/-- C4: decoding the base64 encoding of any byte sequence returns that
sequence. -/
theorem c4_base64_roundtrip (b : Bytes) (h : allLt256 b) :
    base64ToArrayBuffer (arrayBufferToBase64 b) = b :=
  base64_roundtrip b h

/-- C4 witness: the codec round trip on the empty buffer and on a
three-byte buffer. -/
theorem c4_base64_roundtrip_witness :
    base64ToArrayBuffer (arrayBufferToBase64 []) = [] ∧
    base64ToArrayBuffer (arrayBufferToBase64 [0, 255, 17]) = [0, 255, 17] :=
  ⟨c4_base64_roundtrip [] (by decide), c4_base64_roundtrip [0, 255, 17] (by decide)⟩

/-- C5 counterexample: `"!!!"` is not valid base64, yet the decoder does
not fail — it returns the (empty) byte sequence.  The code has no failure
path at all: Node `Buffer.from(s, "base64")` never throws. -/
theorem c5_counterexample :
    isStdBase64 [33, 33, 33] = false ∧ base64ToArrayBuffer [33, 33, 33] = [] :=
  ⟨by decide, by decide⟩

/-- C5 amended: `base64ToArrayBuffer` never fails: it decodes best-effort
— stopping at the first `=` and ignoring other characters outside the
alphabet before it (decoding any string equals decoding that restricted
subsequence) — and returns a, possibly empty, byte sequence rather than
an error. -/
theorem c5_decode_lenient_amended (s : List Nat) :
    base64ToArrayBuffer s =
      base64ToArrayBuffer ((s.takeWhile (fun c => c != 61)).filter isB64Alpha) := by
  unfold base64ToArrayBuffer
  rw [takeWhile_ne_pad_eq_self _
    (fun x hx => isB64Alpha_ne_pad x (List.of_mem_filter hx))]
  rw [filterMap_b64Val_filter]

/-- C6: a payload whose decoded byte length exceeds 190 (the
2048-bit/SHA-256 OAEP bound 256 - 2*32 - 2) makes `rsaEncrypt` fail with
the payload-too-large condition, whatever the seed, for every public key
whose material the provider's SPKI parser accepts (the source awaits the
key import before encrypting, so a malformed key fails earlier, with the
key-format condition instead). -/
theorem c6_payload_too_large (R : RsaOaep) (seed : Bytes) (b64Data strPublicKey : List Nat)
    (hdata : 190 < (base64ToArrayBuffer b64Data).length)
    (hkey : R.spkiOk (base64ToArrayBuffer strPublicKey) = true) :
    rsaEncrypt R seed b64Data strPublicKey = .error .PayloadTooLargeError := by
  have himp : importPubKey R strPublicKey = .ok (base64ToArrayBuffer strPublicKey) := by
    simp [importPubKey, hkey]
  have h3 : rsaOaepEncrypt R (base64ToArrayBuffer strPublicKey) seed
      (base64ToArrayBuffer b64Data) = none := by
    unfold rsaOaepEncrypt
    rw [if_neg (by omega)]
  simp [rsaEncrypt, himp, h3]

set_option maxRecDepth 8192 in
/-- C6 witness: a genuinely exported public key together with 256 base64
digits of payload, which decode to 192 bytes, above the bound. -/
theorem c6_payload_too_large_witness :
    rsaEncrypt rsaSeedModel [] (List.replicate 256 65) (exportPubKey [1, 2, 3]) =
      .error .PayloadTooLargeError :=
  c6_payload_too_large rsaSeedModel [] (List.replicate 256 65) (exportPubKey [1, 2, 3])
    (by decide) (by decide)

/-- C7: `exportPrvKey` maps an absent key to absent without error, and a
present key to the base64 of its PKCS8 serialization (which decodes back
to that serialization). -/
theorem c7_prvkey_passthrough :
    exportPrvKey none = none ∧
    ∀ key : Bytes, allLt256 key →
      ∃ s, exportPrvKey (some key) = some s ∧ base64ToArrayBuffer s = key :=
  ⟨rfl, fun key hk => ⟨arrayBufferToBase64 key, rfl, base64_roundtrip key hk⟩⟩

/-- C7 witness: the present-key branch evaluated at concrete key bytes. -/
theorem c7_prvkey_passthrough_witness :
    ∃ s, exportPrvKey (some [1, 2, 250]) = some s ∧
      base64ToArrayBuffer s = [1, 2, 250] :=
  c7_prvkey_passthrough.2 [1, 2, 250] (by decide)

/-- C8 counterexample: the single byte 255 is not valid UTF-8; a
ciphertext that decrypts to exactly that byte makes `symDecrypt` return
text (one replacement character) rather than fail with an EncodingError:
`TextDecoder` without `fatal: true` never raises. -/
theorem c8_counterexample :
    isValidUtf8 [255] = false ∧
    aesCbcDecrypt idCipher keyDemo ivZero
      (base64ToArrayBuffer (arrayBufferToBase64 ([255] ++ List.replicate 15 15))) =
      some [255] ∧
    symDecrypt idCipher ivZero (exportSymKey keyDemo)
      (arrayBufferToBase64 ([255] ++ List.replicate 15 15)) = .ok [replChar] :=
  ⟨by decide, by decide, rfl⟩

/-- C8 amended: `symDecrypt` fails with the CryptoOperationError condition
exactly when the AES-CBC length/padding validation fails (wrong key, wrong
IV or corrupted ciphertext); it never fails with an EncodingError — when
the decrypted bytes are not valid UTF-8 it still returns text, with
malformed sequences replaced by U+FFFD. -/
theorem c8_decrypt_errors_amended (C : BlockCipher) (iv : Bytes) (strKey ct : List Nat) :
    (∀ e, symDecrypt C iv strKey ct = .error e → e ≠ CryptoError.EncodingError) ∧
    (∀ key, importSymKey strKey = .ok key →
      aesCbcDecrypt C key iv (base64ToArrayBuffer ct) = none →
      symDecrypt C iv strKey ct = .error .CryptoOperationError) ∧
    (∀ key bytes, importSymKey strKey = .ok key →
      aesCbcDecrypt C key iv (base64ToArrayBuffer ct) = some bytes →
      symDecrypt C iv strKey ct = .ok (utf8Decode bytes)) := by
  refine ⟨?_, ?_, ?_⟩
  · intro e he
    cases himp : importSymKey strKey with
    | error e2 =>
      have hs : symDecrypt C iv strKey ct = .error e2 := by
        simp [symDecrypt, himp]
      rw [hs] at he
      have h2 : e2 = e := Except.error.inj he
      subst h2
      simp [importSymKey_error strKey e2 himp]
    | ok key =>
      cases hdec : aesCbcDecrypt C key iv (base64ToArrayBuffer ct) with
      | none =>
        have hs : symDecrypt C iv strKey ct = .error .CryptoOperationError := by
          simp [symDecrypt, himp, hdec]
        rw [hs] at he
        have h2 : CryptoError.CryptoOperationError = e := Except.error.inj he
        simp [← h2]
      | some bytes =>
        have hs : symDecrypt C iv strKey ct = .ok (utf8Decode bytes) := by
          simp [symDecrypt, himp, hdec]
        rw [hs] at he
        exact absurd he (by simp)
  · intro key hk hdec
    simp [symDecrypt, hk, hdec]
  · intro key bytes hk hdec
    simp [symDecrypt, hk, hdec]

/-- C8 witness: the empty ciphertext fails AES-CBC validation, and
`symDecrypt` surfaces the CryptoOperationError condition for it. -/
theorem c8_decrypt_errors_amended_witness :
    symDecrypt idCipher ivZero (exportSymKey keyDemo) [] =
      .error .CryptoOperationError :=
  (c8_decrypt_errors_amended idCipher ivZero (exportSymKey keyDemo) []).2.1
    keyDemo (by rfl) (by rfl)

/-- C9 counterexample: `rsaEncrypt` is not deterministic given its inputs:
with identical payload and an identical genuinely exported public key,
but the two seeds the provider may draw for OAEP, the two invocations
return different ciphertexts. -/
theorem c9_counterexample :
    rsaEncrypt rsaSeedModel [0] (arrayBufferToBase64 [7]) (exportPubKey [1, 2, 3]) =
      .ok [65, 65, 99, 61] ∧
    rsaEncrypt rsaSeedModel [1] (arrayBufferToBase64 [7]) (exportPubKey [1, 2, 3]) =
      .ok [65, 81, 99, 61] ∧
    ([65, 65, 99, 61] : List Nat) ≠ [65, 81, 99, 61] :=
  ⟨rfl, rfl, by decide⟩

/-- C9 amended: decryption, key import/export and symmetric encryption
take no per-call randomness, and although `rsaEncrypt` is randomized by
the OAEP seed, its outcome (success or failure, and the failure value) is
determined by the inputs alone — so retrying a failed identical call still
cannot change the outcome. -/
theorem c9_outcome_deterministic_amended (R : RsaOaep) (seed1 seed2 : Bytes)
    (b64Data strPublicKey : List Nat) :
    (rsaEncrypt R seed1 b64Data strPublicKey).isOk =
      (rsaEncrypt R seed2 b64Data strPublicKey).isOk ∧
    ∀ e, rsaEncrypt R seed1 b64Data strPublicKey = .error e →
      rsaEncrypt R seed2 b64Data strPublicKey = .error e := by
  cases himp : importPubKey R strPublicKey with
  | error e2 => simp [rsaEncrypt, himp, Except.isOk, Except.toBool]
  | ok pub =>
    by_cases hgate :
      (base64ToArrayBuffer b64Data).length ≤ 256 - 2 * 32 - 2
    · simp [rsaEncrypt, rsaOaepEncrypt, himp, hgate, Except.isOk, Except.toBool]
    · simp [rsaEncrypt, rsaOaepEncrypt, himp, hgate, Except.isOk, Except.toBool]

set_option maxRecDepth 8192 in
/-- C9 witness: the outcome-determinism applied at a failing input — an
oversized payload fails identically under a different seed. -/
theorem c9_outcome_deterministic_amended_witness :
    rsaEncrypt rsaSeedModel [1] (List.replicate 256 65) (exportPubKey [1, 2, 3]) =
      .error .PayloadTooLargeError :=
  (c9_outcome_deterministic_amended rsaSeedModel [0] [1] (List.replicate 256 65)
    (exportPubKey [1, 2, 3])).2 .PayloadTooLargeError (by rfl)

/-- C10 counterexample: equality of the module-level IVs is not necessary
for recovery.  The text `[U+FFFD]` encrypted in a process with IV
`ivZero` is still recovered by `symDecrypt` in a process whose IV is the
different value `ivAlt`: a changed IV only perturbs the first plaintext
block, and here the perturbed padded block still unpads to bytes that
replacement-decode to the same text. -/
theorem c10_counterexample :
    symDecrypt idCipher ivAlt (exportSymKey keyDemo)
      (symEncrypt idCipher ivZero keyDemo [replChar]) = .ok [replChar] ∧
    ivAlt ≠ ivZero :=
  ⟨rfl, by decide⟩

/-- C10 amended: the IV is a single module-level value fixed for the
process; `symEncrypt` neither accepts nor generates nor outputs an IV —
its ciphertext is exactly the AES-CBC encryption of the padded payload
under the module IV, with length the payload length rounded up to a
multiple of 16, leaving no room for an IV alongside; and, per the
counterexample, equality of module IVs is not necessary for recovery. -/
theorem c10_module_iv_amended (C : BlockCipher) (iv key : Bytes) (s : List Char)
    (hiv : iv.length = 16) (hivb : allLt256 iv) :
    base64ToArrayBuffer (symEncrypt C iv key s) =
      aesCbcEncrypt C key iv (utf8Encode s) ∧
    (base64ToArrayBuffer (symEncrypt C iv key s)).length =
      (utf8Encode s).length + (16 - (utf8Encode s).length % 16) := by
  have h1 : base64ToArrayBuffer (symEncrypt C iv key s) =
      aesCbcEncrypt C key iv (utf8Encode s) := by
    unfold symEncrypt
    exact base64_roundtrip _ (aesCbcEncrypt_lt C key iv _ hiv hivb (utf8Encode_lt s))
  refine ⟨h1, ?_⟩
  rw [h1]
  exact aesCbcEncrypt_length C key iv _ hiv hivb (utf8Encode_lt s)

/-- C10 witness: the ciphertext of a one-character text is exactly the
16-byte encrypted padded payload, evaluated concretely. -/
theorem c10_module_iv_amended_witness :
    base64ToArrayBuffer (symEncrypt idCipher ivZero keyDemo [Char.ofNat 97]) =
      aesCbcEncrypt idCipher keyDemo ivZero (utf8Encode [Char.ofNat 97]) ∧
    (base64ToArrayBuffer (symEncrypt idCipher ivZero keyDemo [Char.ofNat 97])).length =
      (utf8Encode [Char.ofNat 97]).length +
        (16 - (utf8Encode [Char.ofNat 97]).length % 16) :=
  c10_module_iv_amended idCipher ivZero keyDemo [Char.ofNat 97] (by decide) (by decide)

end Workshop4
